import Mathlib

/-!
Shallow embedding of the points-ledger engine of the masterduel-assistant
backend: the match sub-document schema and `stats` virtual of
`src/backend/models/session.js`, and the four match routes of
`src/backend/routes/matches.js` (append, edit, delete, clear) together
with their forward-recompute loops.

JavaScript numbers are modelled as rationals (`ℚ`); the only non-integer
arithmetic in the source is the `- 0.5` of the "dc" loss rule, which is
exact in `ℚ`.  Mongoose `_id` locators are modelled as list indices: a
`findIndex` that returns `-1` corresponds to an out-of-range index.  The
`createdAt` timestamp and free-text `notes` of the match schema are
omitted: no route or stat reads them.
-/

namespace MDA

/-- `result` enum of the match schema: `['Win', 'Loss']`. -/
inductive Result where
  | Win
  | Loss
deriving DecidableEq, Repr

/-- `turn` enum of the match schema: `['1st', '2nd']`. -/
inductive Turn where
  | First
  | Second
deriving DecidableEq, Repr

/-- `pointsFormula` enum of the session schema: `['rated', 'dc']`. -/
inductive Formula where
  | rated
  | dc
deriving DecidableEq, Repr

/-- A match sub-document (`matchSchema` in `session.js`), without the
`createdAt` timestamp and `notes` fields, which nothing reads. -/
structure Match where
  deck : String
  opp : String
  result : Result
  turn : Turn
  pointsBefore : ℚ
  pointsAfter : ℚ
  customPointsAfter : Option ℚ := none
deriving DecidableEq, Repr

/-- The part of the session document the ledger engine reads and writes:
the ordered match list, the scoring formula and the starting points. -/
structure Session where
  matchList : List Match
  pointsFormula : Formula
  pointsStart : ℚ
deriving DecidableEq, Repr

/-- The scoring rule, as written identically in the append route and both
recompute loops of `matches.js`: rated is `±7`; dc is `+1` on a Win and,
on a Loss, `-0.5` below 15 points and `-1` otherwise. -/
def calcPoints (f : Formula) (r : Result) (prior : ℚ) : ℚ :=
  match f with
  | .rated => match r with
    | .Win => prior + 7
    | .Loss => prior - 7
  | .dc => match r with
    | .Win => prior + 1
    | .Loss => if prior < 15 then prior - 1/2 else prior - 1

/-- A validated append payload (`{deck, opp, result, turn, customPointsAfter}`
after the route's required-field check and the schema's enum check). -/
structure MatchInput where
  deck : String
  opp : String
  result : Result
  turn : Turn
  customPointsAfter : Option ℚ := none
deriving DecidableEq, Repr

/-- `POST /:id/matches` (lines 34-64 of `matches.js`): `lastPoints` is the
last match's `pointsAfter` or `pointsStart` on an empty list; the new
match gets `pointsBefore = lastPoints` and `pointsAfter` equal to the
supplied `customPointsAfter`, else the scoring rule; it is pushed at the
end.  Returns the updated session and the newly added match. -/
def appendMatch (s : Session) (inp : MatchInput) : Session × Match :=
  let lastPoints : ℚ := match s.matchList.getLast? with
    | some lastMatch => lastMatch.pointsAfter
    | none => s.pointsStart
  let newPoints : ℚ := match inp.customPointsAfter with
    | some c => c
    | none => calcPoints s.pointsFormula inp.result lastPoints
  let m : Match :=
    { deck := inp.deck
      opp := inp.opp
      result := inp.result
      turn := inp.turn
      pointsBefore := lastPoints
      pointsAfter := newPoints
      customPointsAfter := inp.customPointsAfter }
  ({ s with matchList := s.matchList ++ [m] }, m)

/-- The forward-recompute loop shared by the edit route (from
`matchIndex + 1`) and the delete route (from `matchIndex`): each match in
turn gets `pointsBefore` from the carried prior points, keeps its stored
`pointsAfter` when it has a `customPointsAfter` override, and otherwise
gets `pointsAfter` from the scoring rule; its `pointsAfter` is carried
forward. -/
def recompute (f : Formula) : ℚ → List Match → List Match
  | _, [] => []
  | prior, m :: rest =>
    let m' : Match :=
      { m with
        pointsBefore := prior
        pointsAfter := match m.customPointsAfter with
          | some _ => m.pointsAfter
          | none => calcPoints f m.result prior }
    m' :: recompute f m'.pointsAfter rest

/-- An edit payload for `PUT /:sessionId/matches/:matchId`: each field is
optional; a JavaScript-falsy (absent or empty) scalar field is `none`. -/
structure EditInput where
  deck : Option String := none
  opp : Option String := none
  result : Option Result := none
  turn : Option Turn := none
  customPointsAfter : Option ℚ := none
deriving DecidableEq, Repr

/-- `PUT /:sessionId/matches/:matchId` (lines 89-159 of `matches.js`):
if the index does not resolve the session is untouched (the route
404s); otherwise the supplied scalar fields overwrite the match's, and
when `customPointsAfter` is supplied it is stored, `pointsAfter` is set
to it, and the forward recompute runs over all later matches starting
from that value.  Without `customPointsAfter` no recompute runs. -/
def editMatch (s : Session) (idx : ℕ) (e : EditInput) : Session :=
  match s.matchList[idx]? with
  | none => s
  | some m =>
    let m1 : Match :=
      { m with
        deck := e.deck.getD m.deck
        opp := e.opp.getD m.opp
        result := e.result.getD m.result
        turn := e.turn.getD m.turn }
    match e.customPointsAfter with
    | none => { s with matchList := s.matchList.set idx m1 }
    | some x =>
      let m2 : Match := { m1 with customPointsAfter := some x, pointsAfter := x }
      { s with
        matchList := s.matchList.take idx ++ m2 ::
          recompute s.pointsFormula x (s.matchList.drop (idx + 1)) }

/-- `DELETE /:sessionId/matches/:matchId` (lines 173-229 of `matches.js`):
if the index does not resolve the session is untouched (the route 404s);
otherwise the match is spliced out and the forward recompute runs from
the removed position, the initial prior points being `pointsStart` when
the removed position is first and the preceding match's `pointsAfter`
otherwise. -/
def deleteMatch (s : Session) (idx : ℕ) : Session :=
  if idx < s.matchList.length then
    let prior : ℚ := match (s.matchList.take idx).getLast? with
      | some m => m.pointsAfter
      | none => s.pointsStart
    { s with
      matchList := s.matchList.take idx ++
        recompute s.pointsFormula prior (s.matchList.drop (idx + 1)) }
  else s

/-- `DELETE /:id/matches` (lines 243-264 of `matches.js`): the match list
is truncated to empty. -/
def clearMatches (s : Session) : Session :=
  { s with matchList := [] }

/-- The derived statistics returned by the `stats` virtual of
`session.js` (lines 78-106). -/
structure SessionStats where
  total : ℕ
  wins : ℕ
  losses : ℕ
  winRate : ℚ
  winRate1st : ℚ
  winRate2nd : ℚ
  currentPoints : ℚ
  peakPoints : ℚ
deriving DecidableEq, Repr

/-- The `stats` virtual of `session.js`: match counts, win rates rounded
to one decimal via `round(x * 1000) / 10` (with `0` on an empty
denominator), current points (last match's `pointsAfter`, or
`pointsStart` with no matches) and peak points
(`Math.max(...pointsAfter, pointsStart)`). -/
def stats (s : Session) : SessionStats :=
  let total := s.matchList.length
  let wins := (s.matchList.filter fun m => m.result = .Win).length
  let losses := total - wins
  let winRate : ℚ :=
    if total > 0 then (round (((wins : ℚ) / total) * 1000) : ℚ) / 10 else 0
  let matches1st := s.matchList.filter fun m => m.turn = .First
  let wins1st := (matches1st.filter fun m => m.result = .Win).length
  let winRate1st : ℚ :=
    if matches1st.length > 0 then
      (round (((wins1st : ℚ) / matches1st.length) * 1000) : ℚ) / 10
    else 0
  let matches2nd := s.matchList.filter fun m => m.turn = .Second
  let wins2nd := (matches2nd.filter fun m => m.result = .Win).length
  let winRate2nd : ℚ :=
    if matches2nd.length > 0 then
      (round (((wins2nd : ℚ) / matches2nd.length) * 1000) : ℚ) / 10
    else 0
  let currentPoints : ℚ := match s.matchList.getLast? with
    | some m => m.pointsAfter
    | none => s.pointsStart
  let peakPoints : ℚ := (s.matchList.map (·.pointsAfter)).foldr max s.pointsStart
  { total := total, wins := wins, losses := losses, winRate := winRate
    winRate1st := winRate1st, winRate2nd := winRate2nd
    currentPoints := currentPoints, peakPoints := peakPoints }

/-! ### Route layer: locators, validation and error reporting

The HTTP handlers wrap the session-level operations with a session
lookup, a match lookup and (for the append route) required-field and
enum validation.  A store is a list of sessions keyed by id; each
handler returns the error it responds with (if any) together with the
store as left by the call. -/

/-- The two error responses of the match routes: the 400
required-field/enum failure and the 404 session/match lookup failure. -/
inductive ApiError where
  | validation
  | notFound
deriving DecidableEq, Repr

/-- A raw append payload, before validation: scalar fields arrive as
strings, an absent field as the (falsy) empty string. -/
structure RawMatchInput where
  deck : String
  opp : String
  result : String
  turn : String
  customPointsAfter : Option ℚ := none
deriving DecidableEq, Repr

/-- The `result` enum of the match schema, as a parser. -/
def parseResult (s : String) : Option Result :=
  if s = "Win" then some .Win else if s = "Loss" then some .Loss else none

/-- The `turn` enum of the match schema, as a parser. -/
def parseTurn (s : String) : Option Turn :=
  if s = "1st" then some .First else if s = "2nd" then some .Second else none

/-- The append route's required-field check (`!deck || !opp || !result ||
!turn`, empty strings being falsy) combined with the schema's enum
validation of `result` and `turn`, both of which reject the request
before any change is persisted. -/
def validateRaw (r : RawMatchInput) : Option MatchInput :=
  if r.deck = "" ∨ r.opp = "" then none
  else
    match parseResult r.result, parseTurn r.turn with
    | some res, some t =>
      some { deck := r.deck, opp := r.opp, result := res, turn := t
             customPointsAfter := r.customPointsAfter }
    | _, _ => none

/-- The persisted sessions, keyed by id (`Session.findOne({_id})`). -/
abbrev Store := List (ℕ × Session)

/-- Session lookup by id. -/
def findSession (st : Store) (sid : ℕ) : Option Session :=
  (List.find? (fun p => p.1 = sid) st).map (·.2)

/-- Persisting an updated session under its id. -/
def setSession (st : Store) (sid : ℕ) (s : Session) : Store :=
  List.map (fun p => if p.1 = sid then (sid, s) else p) st

/-- `POST /:id/matches` as a store transformer: validation first (400),
then session lookup (404), then the append is persisted. -/
def postMatchRoute (st : Store) (sid : ℕ) (r : RawMatchInput) :
    Option ApiError × Store :=
  match validateRaw r with
  | none => (some .validation, st)
  | some inp =>
    match findSession st sid with
    | none => (some .notFound, st)
    | some s => (none, setSession st sid (appendMatch s inp).1)

/-- `PUT /:sessionId/matches/:matchId` as a store transformer: session
lookup (404), match lookup (404), then the edit is persisted. -/
def putMatchRoute (st : Store) (sid : ℕ) (mid : ℕ) (e : EditInput) :
    Option ApiError × Store :=
  match findSession st sid with
  | none => (some .notFound, st)
  | some s =>
    if mid < s.matchList.length then (none, setSession st sid (editMatch s mid e))
    else (some .notFound, st)

/-- `DELETE /:sessionId/matches/:matchId` as a store transformer: session
lookup (404), match lookup (404), then the delete is persisted. -/
def deleteMatchRoute (st : Store) (sid : ℕ) (mid : ℕ) :
    Option ApiError × Store :=
  match findSession st sid with
  | none => (some .notFound, st)
  | some s =>
    if mid < s.matchList.length then (none, setSession st sid (deleteMatch s mid))
    else (some .notFound, st)

/-! ### Observables used by the claims -/

/-- The points chain is linked from `p`: the first match's `pointsBefore`
is `p` and each later match's `pointsBefore` is its predecessor's
`pointsAfter`. -/
def linksFromB (p : ℚ) : List Match → Bool
  | [] => true
  | m :: rest => decide (m.pointsBefore = p) && linksFromB m.pointsAfter rest

/-- The session's whole points chain is linked from `pointsStart`. -/
def chainOkB (s : Session) : Bool :=
  linksFromB s.pointsStart s.matchList

/-- A match either has no `customPointsAfter` override, or its
`pointsAfter` equals the override. -/
def customOkB (m : Match) : Bool :=
  match m.customPointsAfter with
  | some c => decide (m.pointsAfter = c)
  | none => true

/-- Every match carrying a `customPointsAfter` override has `pointsAfter`
equal to it. -/
def customInvB (l : List Match) : Bool :=
  l.all customOkB

/-- The suffix is fully derived from prior points `p`: linked as in
`linksFromB`, and every non-overridden match's `pointsAfter` is the
scoring rule applied to its `pointsBefore`. -/
def derivedFromB (f : Formula) (p : ℚ) : List Match → Bool
  | [] => true
  | m :: rest =>
    decide (m.pointsBefore = p) &&
    (match m.customPointsAfter with
     | some _ => true
     | none => decide (m.pointsAfter = calcPoints f m.result p)) &&
    derivedFromB f m.pointsAfter rest

/-- The prior points carried into position `i` of a list, starting the
chain at `p`: the `pointsAfter` of the last of the first `i` matches, or
`p` when there are none. -/
def lastPA (p : ℚ) : List Match → ℚ
  | [] => p
  | m :: rest => lastPA m.pointsAfter rest

/-- The sessions the system can actually hold: a session is created with
an empty match list (`POST /api/sessions`) and evolves only by the four
match routes. -/
inductive Reachable : Session → Prop
  | init (f : Formula) (p : ℚ) : Reachable ⟨[], f, p⟩
  | append {s : Session} (inp : MatchInput) :
      Reachable s → Reachable (appendMatch s inp).1
  | edit {s : Session} (idx : ℕ) (e : EditInput) :
      Reachable s → Reachable (editMatch s idx e)
  | delete {s : Session} (idx : ℕ) :
      Reachable s → Reachable (deleteMatch s idx)
  | clear {s : Session} : Reachable s → Reachable (clearMatches s)

/-! ### Helper lemmas -/

theorem linksFromB_cons {p : ℚ} {m : Match} {l : List Match} :
    linksFromB p (m :: l) = true ↔
      m.pointsBefore = p ∧ linksFromB m.pointsAfter l = true := by
  simp [linksFromB]

theorem lastPA_eq_getLast : ∀ (l : List Match) (p : ℚ),
    lastPA p l = (l.getLast?).elim p (·.pointsAfter)
  | [], _ => rfl
  | [_], _ => rfl
  | m :: m' :: l, p => by
    rw [lastPA, lastPA_eq_getLast (m' :: l) m.pointsAfter, List.getLast?_cons_cons]
    cases hg : (m' :: l).getLast? with
    | none => simp at hg
    | some mLast => rfl

theorem linksFromB_append : ∀ (l₁ l₂ : List Match) (p : ℚ),
    linksFromB p (l₁ ++ l₂) = (linksFromB p l₁ && linksFromB (lastPA p l₁) l₂)
  | [], _, _ => rfl
  | m :: l₁, l₂, p => by
    simp [linksFromB, lastPA, linksFromB_append l₁ l₂ m.pointsAfter, Bool.and_assoc]

theorem linksFromB_recompute (f : Formula) (l : List Match) : ∀ p : ℚ,
    linksFromB p (recompute f p l) = true := by
  induction l with
  | nil => intro p; rfl
  | cons m l ih => intro p; simp [recompute, linksFromB, ih]

theorem customInvB_cons {m : Match} {l : List Match} :
    customInvB (m :: l) = true ↔ customOkB m = true ∧ customInvB l = true := by
  simp [customInvB]

theorem customInvB_iff_mem {l : List Match} :
    customInvB l = true ↔ ∀ m ∈ l, customOkB m = true :=
  List.all_eq_true

theorem customInvB_recompute (f : Formula) (l : List Match)
    (h : customInvB l = true) : ∀ p : ℚ, customInvB (recompute f p l) = true := by
  induction l with
  | nil => intro p; rfl
  | cons m l ih =>
    intro p
    obtain ⟨hm, hl⟩ := customInvB_cons.1 h
    refine customInvB_cons.2 ⟨?_, ih hl _⟩
    cases hc : m.customPointsAfter with
    | none => simp [recompute, customOkB, hc]
    | some c => simp [recompute, customOkB, hc]; simpa [customOkB, hc] using hm

theorem derivedFromB_recompute (f : Formula) (l : List Match) : ∀ p : ℚ,
    derivedFromB f p (recompute f p l) = true := by
  induction l with
  | nil => intro p; rfl
  | cons m l ih =>
    intro p
    cases hc : m.customPointsAfter with
    | none => simp [recompute, derivedFromB, hc, ih]
    | some c => simp [recompute, derivedFromB, hc, ih]

/-- Splitting a list at a resolving index. -/
theorem decomp_of_getElem? {l : List Match} {i : ℕ} {m : Match}
    (h : l[i]? = some m) : l = l.take i ++ m :: l.drop (i + 1) := by
  obtain ⟨hlt, hm⟩ := List.getElem?_eq_some.1 h
  conv_lhs => rw [← List.take_append_drop i l]
  rw [List.drop_eq_getElem_cons hlt, hm]

theorem length_take_of_getElem? {l : List Match} {i : ℕ} {m : Match}
    (h : l[i]? = some m) : (l.take i).length = i := by
  obtain ⟨hlt, _⟩ := List.getElem?_eq_some.1 h
  simp [List.length_take, Nat.min_eq_left hlt.le]

/-! ### Preservation of the chain link invariant by each operation -/

theorem chainOkB_append {s : Session} (inp : MatchInput)
    (h : chainOkB s = true) : chainOkB (appendMatch s inp).1 = true := by
  unfold chainOkB at *
  show linksFromB s.pointsStart (s.matchList ++ [_]) = true
  rw [linksFromB_append, Bool.and_eq_true]
  refine ⟨h, ?_⟩
  rw [lastPA_eq_getLast]
  cases hg : s.matchList.getLast? with
  | none => simp [appendMatch, linksFromB, hg]
  | some lastMatch => simp [appendMatch, linksFromB, hg]

theorem linksFromB_set_of_pts_eq : ∀ (l : List Match) (i : ℕ) (m1 : Match) (p : ℚ),
    (∀ m, l[i]? = some m →
      m1.pointsBefore = m.pointsBefore ∧ m1.pointsAfter = m.pointsAfter) →
    linksFromB p (l.set i m1) = linksFromB p l
  | [], _, _, _, _ => rfl
  | m :: l, 0, m1, p, h => by
    obtain ⟨hb, ha⟩ := h m (by simp)
    simp [linksFromB, hb, ha]
  | m :: l, i + 1, m1, p, h => by
    simp only [List.set_cons_succ, linksFromB]
    rw [linksFromB_set_of_pts_eq l i m1 m.pointsAfter
      (fun m' hm' => h m' (by simpa using hm'))]

theorem chainOkB_edit {s : Session} (idx : ℕ) (e : EditInput)
    (h : chainOkB s = true) : chainOkB (editMatch s idx e) = true := by
  unfold editMatch
  cases hg : s.matchList[idx]? with
  | none => exact h
  | some m =>
    cases hc : e.customPointsAfter with
    | none =>
      simp only [chainOkB] at *
      rw [linksFromB_set_of_pts_eq]
      · exact h
      · intro m' hm'
        rw [hg] at hm'
        cases hm'
        exact ⟨rfl, rfl⟩
    | some x =>
      simp only [chainOkB] at *
      rw [decomp_of_getElem? hg, linksFromB_append, Bool.and_eq_true] at h
      obtain ⟨h1, h2⟩ := h
      obtain ⟨hb, _⟩ := linksFromB_cons.1 h2
      show linksFromB s.pointsStart (s.matchList.take idx ++ _ :: _) = true
      rw [linksFromB_append, Bool.and_eq_true]
      refine ⟨h1, ?_⟩
      refine linksFromB_cons.2 ⟨hb, ?_⟩
      exact linksFromB_recompute _ _ _

theorem chainOkB_delete {s : Session} (idx : ℕ)
    (h : chainOkB s = true) : chainOkB (deleteMatch s idx) = true := by
  unfold deleteMatch
  by_cases hlt : idx < s.matchList.length
  · simp only [hlt, if_true]
    have hg : s.matchList[idx]? = some (s.matchList.get ⟨idx, hlt⟩) :=
      List.getElem?_eq_some.2 ⟨hlt, rfl⟩
    simp only [chainOkB] at *
    rw [decomp_of_getElem? hg, linksFromB_append, Bool.and_eq_true] at h
    obtain ⟨h1, _⟩ := h
    show linksFromB s.pointsStart (s.matchList.take idx ++ _) = true
    rw [linksFromB_append, Bool.and_eq_true]
    refine ⟨h1, ?_⟩
    rw [lastPA_eq_getLast]
    cases hgl : (s.matchList.take idx).getLast? with
    | none => simpa [hgl] using linksFromB_recompute s.pointsFormula _ _
    | some mPrev => simpa [hgl] using linksFromB_recompute s.pointsFormula _ _
  · simp only [hlt, if_false]
    exact h

theorem chainOkB_clear {s : Session} (_ : chainOkB s = true) :
    chainOkB (clearMatches s) = true := rfl

/-! ### Preservation of the override-consistency invariant -/

theorem customInvB_append_op {s : Session} (inp : MatchInput)
    (h : customInvB s.matchList = true) :
    customInvB (appendMatch s inp).1.matchList = true := by
  show customInvB (s.matchList ++ [_]) = true
  rw [customInvB_iff_mem]
  intro m hm
  rcases List.mem_append.1 hm with hm | hm
  · exact customInvB_iff_mem.1 h m hm
  · rcases List.mem_singleton.1 hm with rfl
    cases hc : inp.customPointsAfter with
    | none => simp [appendMatch, customOkB, hc]
    | some c => simp [appendMatch, customOkB, hc]

theorem customInvB_edit {s : Session} (idx : ℕ) (e : EditInput)
    (h : customInvB s.matchList = true) :
    customInvB (editMatch s idx e).matchList = true := by
  unfold editMatch
  cases hg : s.matchList[idx]? with
  | none => exact h
  | some m =>
    cases hc : e.customPointsAfter with
    | none =>
      show customInvB (s.matchList.set idx _) = true
      rw [customInvB_iff_mem]
      intro m' hm'
      rcases List.mem_or_eq_of_mem_set hm' with hm' | rfl
      · exact customInvB_iff_mem.1 h m' hm'
      · have hm := customInvB_iff_mem.1 h m (List.getElem?_mem hg)
        simpa [customOkB] using hm
    | some x =>
      show customInvB (s.matchList.take idx ++ _ :: _) = true
      rw [customInvB_iff_mem]
      intro m' hm'
      rcases List.mem_append.1 hm' with hm' | hm'
      · exact customInvB_iff_mem.1 h m' (List.take_subset _ _ hm')
      · rcases List.mem_cons.1 hm' with rfl | hm'
        · simp [customOkB]
        · have hrec : customInvB (recompute s.pointsFormula x
              (s.matchList.drop (idx + 1))) = true := by
            refine customInvB_recompute _ _ ?_ _
            rw [customInvB_iff_mem]
            intro m'' hm''
            exact customInvB_iff_mem.1 h m'' (List.drop_subset _ _ hm'')
          exact customInvB_iff_mem.1 hrec m' hm'

theorem customInvB_delete {s : Session} (idx : ℕ)
    (h : customInvB s.matchList = true) :
    customInvB (deleteMatch s idx).matchList = true := by
  unfold deleteMatch
  by_cases hlt : idx < s.matchList.length
  · simp only [hlt, if_true]
    show customInvB (s.matchList.take idx ++ _) = true
    rw [customInvB_iff_mem]
    intro m' hm'
    rcases List.mem_append.1 hm' with hm' | hm'
    · exact customInvB_iff_mem.1 h m' (List.take_subset _ _ hm')
    · have hrec : customInvB (recompute s.pointsFormula
          (match (s.matchList.take idx).getLast? with
            | some m => m.pointsAfter
            | none => s.pointsStart)
          (s.matchList.drop (idx + 1))) = true := by
        refine customInvB_recompute _ _ ?_ _
        rw [customInvB_iff_mem]
        intro m'' hm''
        exact customInvB_iff_mem.1 h m'' (List.drop_subset _ _ hm'')
      exact customInvB_iff_mem.1 hrec m' hm'
  · simp only [hlt, if_false]
    exact h

/-- Every reachable session satisfies the override-consistency invariant:
a match with a `customPointsAfter` override stores that value as its
`pointsAfter`. -/
theorem reachable_customInv {s : Session} (h : Reachable s) :
    customInvB s.matchList = true := by
  induction h with
  | init f p => rfl
  | append inp _ ih => exact customInvB_append_op inp ih
  | edit idx e _ ih => exact customInvB_edit idx e ih
  | delete idx _ ih => exact customInvB_delete idx ih
  | clear _ _ => rfl

theorem length_recompute (f : Formula) : ∀ (l : List Match) (p : ℚ),
    (recompute f p l).length = l.length
  | [], _ => rfl
  | m :: l, p => by
    simp only [recompute, List.length_cons]
    rw [length_recompute f l]

theorem recompute_map_custom (f : Formula) : ∀ (l : List Match) (p : ℚ),
    (recompute f p l).map (·.customPointsAfter) = l.map (·.customPointsAfter)
  | [], _ => rfl
  | m :: l, p => by
    simp only [recompute, List.map_cons]
    rw [recompute_map_custom f l]

/-- Replacing a list element by one that agrees under `pts` leaves the
`pts` image unchanged. -/
theorem map_set_of_eq {α : Type} (pts : Match → α) :
    ∀ (l : List Match) (i : ℕ) (m1 : Match),
    (∀ m, l[i]? = some m → pts m1 = pts m) →
    (l.set i m1).map pts = l.map pts
  | [], _, _, _ => rfl
  | m :: l, 0, m1, h => by
    simp [h m (by simp)]
  | m :: l, i + 1, m1, h => by
    simp only [List.set_cons_succ, List.map_cons]
    rw [map_set_of_eq pts l i m1 (fun m' hm' => h m' (by simpa using hm'))]

/-! ### Example sessions for the concrete test points -/

/-- A freshly created session under the rated formula starting at 1500. -/
def exStart : Session := ⟨[], .rated, 1500⟩

/-- A Win payload. -/
def exWin : MatchInput :=
  { deck := "Branded", opp := "Orcust", result := .Win, turn := .First }

/-- A Loss payload. -/
def exLoss : MatchInput :=
  { deck := "Branded", opp := "Maliss", result := .Loss, turn := .Second }

/-- Win, Loss, Win appended to a rated session starting at 1500: the
points chain 1500 → 1507 → 1500 → 1507. -/
def exWLW : Session :=
  (appendMatch (appendMatch (appendMatch exStart exWin).1 exLoss).1 exWin).1

/-- Win, Loss, Loss appended to a rated session starting at 1500: one win
out of three matches. -/
def exWLL : Session :=
  (appendMatch (appendMatch (appendMatch exStart exWin).1 exLoss).1 exLoss).1

/-! ### Claims -/

/-- C1: Chain invariant: for every session reachable by any sequence of
append, edit, delete, and clear operations, if the match sequence is
non-empty then the first match's `pointsBefore` equals the session's
`pointsStart`, and for every index `i > 0` match `i`'s `pointsBefore`
equals match `i-1`'s `pointsAfter`. -/
theorem C1_chain_invariant {s : Session} (h : Reachable s) :
    chainOkB s = true := by
  induction h with
  | init f p => rfl
  | append inp _ ih => exact chainOkB_append inp ih
  | edit idx e _ ih => exact chainOkB_edit idx e ih
  | delete idx _ ih => exact chainOkB_delete idx ih
  | clear _ ih => exact chainOkB_clear ih

theorem C1_chain_invariant_witness : chainOkB exWLW = true :=
  C1_chain_invariant
    (Reachable.append exWin
      (Reachable.append exLoss
        (Reachable.append exWin (Reachable.init .rated 1500))))

/-- C4: Append postcondition: for every session and valid match payload,
append creates exactly one new match at the end of the sequence with
`pointsBefore` equal to the previous last match's `pointsAfter` (or
`pointsStart` if the sequence was empty) and `pointsAfter` equal to
`customPointsAfter` when supplied, otherwise the scoring rule applied to
`(pointsBefore, result, formula)`; the sequence length increases by one
and every pre-existing match is unchanged. -/
theorem C4_append_postcondition (s : Session) (inp : MatchInput) :
    (appendMatch s inp).1.matchList = s.matchList ++ [(appendMatch s inp).2] ∧
    (appendMatch s inp).1.matchList.length = s.matchList.length + 1 ∧
    (appendMatch s inp).1.matchList.take s.matchList.length = s.matchList ∧
    (appendMatch s inp).2.pointsBefore
      = (s.matchList.getLast?).elim s.pointsStart (·.pointsAfter) ∧
    (appendMatch s inp).2.pointsAfter
      = (inp.customPointsAfter).elim
          (calcPoints s.pointsFormula inp.result
            ((s.matchList.getLast?).elim s.pointsStart (·.pointsAfter)))
          id := by
  refine ⟨rfl, by simp [appendMatch], List.take_left' rfl, ?_, ?_⟩
  · cases hg : s.matchList.getLast? with
    | none => simp [appendMatch, hg]
    | some lastMatch => simp [appendMatch, hg]
  · cases hc : inp.customPointsAfter with
    | none =>
      cases hg : s.matchList.getLast? with
      | none => simp [appendMatch, hg, hc]
      | some lastMatch => simp [appendMatch, hg, hc]
    | some c => simp [appendMatch, hc]

/-- C5: Scoring rule: for every prior points value `p`, under the
`rated` formula a Win yields `p + 7` and a Loss yields `p - 7`; under
the `dc` formula a Win yields `p + 1`, a Loss yields `p - 1` when
`p ≥ 15` and `p - 0.5` when `p < 15`; neither formula applies any floor
or clamp, so the result may be negative. -/
theorem C5_scoring_rule :
    (∀ p : ℚ, calcPoints .rated .Win p = p + 7) ∧
    (∀ p : ℚ, calcPoints .rated .Loss p = p - 7) ∧
    (∀ p : ℚ, calcPoints .dc .Win p = p + 1) ∧
    (∀ p : ℚ, 15 ≤ p → calcPoints .dc .Loss p = p - 1) ∧
    (∀ p : ℚ, p < 15 → calcPoints .dc .Loss p = p - 1/2) ∧
    (∃ p : ℚ, calcPoints .rated .Loss p < 0) ∧
    (∃ p : ℚ, calcPoints .dc .Loss p < 0) := by
  refine ⟨fun p => rfl, fun p => rfl, fun p => rfl, ?_, ?_, ⟨0, ?_⟩, ⟨0, ?_⟩⟩
  · intro p hp
    simp [calcPoints, not_lt.2 hp]
  · intro p hp
    simp [calcPoints, hp]
  · norm_num [calcPoints]
  · norm_num [calcPoints]

theorem C5_scoring_rule_witness :
    calcPoints .dc .Loss 15 = 14 ∧ calcPoints .dc .Loss 10 = 19/2 := by
  constructor
  · rw [C5_scoring_rule.2.2.2.1 15 (by norm_num)]
    norm_num
  · rw [C5_scoring_rule.2.2.2.2.1 10 (by norm_num)]
    norm_num

/-- C8: Idempotent recompute: for every session state, applying the
forward-recompute sub-algorithm (from any starting index with the prior
points derived from that session state) a second time to the
already-recomputed sequence leaves every match's `pointsBefore` and
`pointsAfter` identical to the result of the first application. -/
theorem C8_idempotent_recompute (f : Formula) (l : List Match) : ∀ p : ℚ,
    recompute f p (recompute f p l) = recompute f p l := by
  induction l with
  | nil => intro p; rfl
  | cons m l ih =>
    intro p
    cases hc : m.customPointsAfter with
    | none => simp [recompute, hc, ih]
    | some c => simp [recompute, hc, ih]

/-- An edit payload setting only `customPointsAfter = 1200`. -/
def exEditX : EditInput := { customPointsAfter := some 1200 }

/-- An edit payload flipping only the result to Loss. -/
def exEditRes : EditInput := { result := some .Loss }

/-- An empty edit payload. -/
def exEditNone : EditInput := {}

/-- An append payload whose required `deck` field is missing (falsy). -/
def exRawBad : RawMatchInput :=
  { deck := "", opp := "Orcust", result := "Win", turn := "1st" }

/-- C2: Override precedence: for every session and every valid match
index `i`, editing match `i` with `customPointsAfter = X` sets match
`i`'s `pointsAfter` to `X` regardless of its result, and every later
match `j > i` has its `pointsBefore` and `pointsAfter` re-derived by the
forward recompute from the chain starting at `X`; during that recompute,
any match that itself has `customPointsAfter` set ends with
`pointsAfter` equal to its own override value. -/
theorem C2_override_precedence {s : Session} {idx : ℕ} {e : EditInput} {x : ℚ}
    (hr : Reachable s) (hidx : idx < s.matchList.length)
    (hc : e.customPointsAfter = some x) :
    (editMatch s idx e).matchList[idx]?.map (·.pointsAfter) = some x ∧
    (editMatch s idx e).matchList[idx]?.map (·.customPointsAfter)
      = some (some x) ∧
    (editMatch s idx e).matchList.drop (idx + 1)
      = recompute s.pointsFormula x (s.matchList.drop (idx + 1)) ∧
    customInvB (editMatch s idx e).matchList = true := by
  have hg : s.matchList[idx]? = some (s.matchList.get ⟨idx, hidx⟩) :=
    List.getElem?_eq_some.2 ⟨hidx, rfl⟩
  have hlen : (s.matchList.take idx).length = idx := by
    simp [List.length_take, Nat.min_eq_left hidx.le]
  refine ⟨?_, ?_, ?_, customInvB_edit idx e (reachable_customInv hr)⟩
  · simp only [editMatch, hg, hc]
    rw [List.getElem?_append_right hlen.le, hlen, Nat.sub_self]
    simp
  · simp only [editMatch, hg, hc]
    rw [List.getElem?_append_right hlen.le, hlen, Nat.sub_self]
    simp
  · simp only [editMatch, hg, hc]
    rw [List.append_cons, List.drop_left']
    simp [hlen]

theorem C2_override_precedence_witness :
    (editMatch (appendMatch exStart exWin).1 0 exEditX).matchList.drop 1
      = recompute (appendMatch exStart exWin).1.pointsFormula 1200
          ((appendMatch exStart exWin).1.matchList.drop 1) ∧
    customInvB (editMatch (appendMatch exStart exWin).1 0 exEditX).matchList
      = true :=
  ⟨(C2_override_precedence (Reachable.append exWin (Reachable.init .rated 1500))
      (by decide) rfl).2.2.1,
   (C2_override_precedence (Reachable.append exWin (Reachable.init .rated 1500))
      (by decide) rfl).2.2.2⟩

/-- C3: Delete recompute: for every session and every existing match
index `k`, delete removes the match at `k` (length decreases by one) and
then re-derives every match at index `≥ k` in order, using as initial
prior points the `pointsAfter` of the match now at `k-1`, or
`pointsStart` if `k = 0`; in particular, under `rated` with
`pointsStart` 1500 and matches Win, Loss, Win, deleting the second match
yields the points chain 1500 → 1507 → 1514. -/
theorem C3_delete_recompute {s : Session} {k : ℕ} (hk : k < s.matchList.length) :
    (deleteMatch s k).matchList.length = s.matchList.length - 1 ∧
    (deleteMatch s k).matchList.take k = s.matchList.take k ∧
    derivedFromB s.pointsFormula
      (if k = 0 then s.pointsStart
       else (s.matchList[k-1]?).elim s.pointsStart (·.pointsAfter))
      ((deleteMatch s k).matchList.drop k) = true ∧
    ((deleteMatch exWLW 1).matchList.map fun m => (m.pointsBefore, m.pointsAfter))
      = [(1500, 1507), (1507, 1514)] := by
  have hlen : (s.matchList.take k).length = k := by
    simp [List.length_take, Nat.min_eq_left hk.le]
  have hbranch : (deleteMatch s k).matchList
      = s.matchList.take k ++
        recompute s.pointsFormula
          (match (s.matchList.take k).getLast? with
            | some m => m.pointsAfter
            | none => s.pointsStart)
          (s.matchList.drop (k + 1)) := by
    unfold deleteMatch
    rw [if_pos hk]
  refine ⟨?_, ?_, ?_, ?_⟩
  · rw [hbranch]
    simp only [List.length_append, hlen, length_recompute, List.length_drop]
    omega
  · rw [hbranch, List.take_left' hlen]
  · rw [hbranch, List.drop_left' hlen]
    have hprior : (match (s.matchList.take k).getLast? with
        | some m => m.pointsAfter
        | none => s.pointsStart)
        = (if k = 0 then s.pointsStart
           else (s.matchList[k-1]?).elim s.pointsStart (·.pointsAfter)) := by
      cases k with
      | zero => simp
      | succ j =>
        have hj : j < s.matchList.length := lt_of_le_of_lt (Nat.le_succ j) hk
        have hgj : s.matchList[j]? = some (s.matchList.get ⟨j, hj⟩) :=
          List.getElem?_eq_some.2 ⟨hj, rfl⟩
        have hgl : (s.matchList.take (j + 1)).getLast?
            = some (s.matchList.get ⟨j, hj⟩) := by
          rw [List.take_succ, hgj]
          simp only [Option.toList]
          exact List.getLast?_concat _
        rw [hgl]
        simp [hgj]
    rw [hprior]
    exact derivedFromB_recompute _ _ _
  · norm_num [exWLW, exStart, exWin, exLoss, appendMatch, calcPoints,
      deleteMatch, recompute]

theorem C3_delete_recompute_witness :
    1 < exWLW.matchList.length ∧
    (deleteMatch exWLW 1).matchList.length = exWLW.matchList.length - 1 :=
  ⟨by decide, (C3_delete_recompute (by decide)).1⟩

/-- C6: Edit-without-override frame: for every session and every valid
match index, an edit whose payload does not include `customPointsAfter`
(even one that changes `result`) performs no forward recompute: every
other match in the session, and the edited match's own `pointsBefore`
and `pointsAfter`, are left unchanged. -/
theorem C6_edit_without_override_frame {s : Session} {idx : ℕ} {e : EditInput}
    (hc : e.customPointsAfter = none) :
    (∀ j, j ≠ idx → (editMatch s idx e).matchList[j]? = s.matchList[j]?) ∧
    ((editMatch s idx e).matchList.map fun m => (m.pointsBefore, m.pointsAfter))
      = s.matchList.map fun m => (m.pointsBefore, m.pointsAfter) := by
  cases hg : s.matchList[idx]? with
  | none =>
    have hs : editMatch s idx e = s := by simp only [editMatch, hg]
    rw [hs]
    exact ⟨fun j _ => rfl, rfl⟩
  | some m =>
    simp only [editMatch, hg, hc]
    constructor
    · intro j hj
      exact List.getElem?_set_ne hj.symm
    · refine map_set_of_eq _ _ _ _ (fun m' hm' => ?_)
      rw [hg] at hm'
      cases hm'
      rfl

theorem C6_edit_without_override_frame_witness :
    ((editMatch (appendMatch exStart exWin).1 0 exEditRes).matchList.map
        fun m => (m.pointsBefore, m.pointsAfter))
      = (appendMatch exStart exWin).1.matchList.map
          fun m => (m.pointsBefore, m.pointsAfter) :=
  (C6_edit_without_override_frame rfl).2

/-- C7: Error atomicity: whenever an append, edit, or delete operation
fails with ValidationError (a required match field missing or an enum
value such as `result` outside {Win, Loss}) or with NotFoundError (the
session or match locator does not resolve), the error is raised before
any mutation and the session's match sequence is exactly as it was
before the call. -/
theorem C7_error_atomicity (st : Store) (sid mid : ℕ) (r : RawMatchInput)
    (e : EditInput) :
    ((postMatchRoute st sid r).1.isSome = true → (postMatchRoute st sid r).2 = st) ∧
    ((putMatchRoute st sid mid e).1.isSome = true →
      (putMatchRoute st sid mid e).2 = st) ∧
    ((deleteMatchRoute st sid mid).1.isSome = true →
      (deleteMatchRoute st sid mid).2 = st) := by
  refine ⟨?_, ?_, ?_⟩
  · cases hv : validateRaw r with
    | none => simp [postMatchRoute, hv]
    | some inp =>
      cases hf : findSession st sid with
      | none => simp [postMatchRoute, hv, hf]
      | some s => simp [postMatchRoute, hv, hf]
  · cases hf : findSession st sid with
    | none => simp [putMatchRoute, hf]
    | some s =>
      by_cases hm : mid < s.matchList.length
      · simp [putMatchRoute, hf, hm]
      · simp [putMatchRoute, hf, hm]
  · cases hf : findSession st sid with
    | none => simp [deleteMatchRoute, hf]
    | some s =>
      by_cases hm : mid < s.matchList.length
      · simp [deleteMatchRoute, hf, hm]
      · simp [deleteMatchRoute, hf, hm]

theorem C7_error_atomicity_witness :
    (postMatchRoute [] 0 exRawBad).2 = ([] : Store) ∧
    (deleteMatchRoute [] 0 0).2 = ([] : Store) :=
  ⟨(C7_error_atomicity [] 0 0 exRawBad exEditNone).1 rfl,
   (C7_error_atomicity [] 0 0 exRawBad exEditNone).2.2 rfl⟩

/-- Folding `max` over a list with base `b` bounds `b` and every element
and is attained by `b` or by an element. -/
theorem foldr_max_bounds (l : List ℚ) (b : ℚ) :
    b ≤ l.foldr max b ∧ (∀ x ∈ l, x ≤ l.foldr max b) ∧
    (l.foldr max b = b ∨ l.foldr max b ∈ l) := by
  induction l with
  | nil => simp
  | cons a l ih =>
    obtain ⟨h1, h2, h3⟩ := ih
    refine ⟨le_trans h1 (le_max_right a _), ?_, ?_⟩
    · intro x hx
      rcases List.mem_cons.1 hx with rfl | hx
      · exact le_max_left _ _
      · exact le_trans (h2 x hx) (le_max_right _ _)
    · rcases max_cases a (l.foldr max b) with ⟨heq, _⟩ | ⟨heq, _⟩
      · right
        rw [List.foldr_cons, heq]
        exact List.mem_cons_self _ _
      · rcases h3 with h3 | h3
        · left
          rw [List.foldr_cons, heq, h3]
        · right
          rw [List.foldr_cons, heq]
          exact List.mem_cons_of_mem _ h3

/-- C9: Session aggregate stats: for every session, the derived stats
satisfy: win rate is `round(wins/total * 1000) / 10` when `total > 0`
and `0` when `total = 0`; the going-1st and going-2nd win rates use the
same rounding over only the matches with that turn value and are `0`
(not an error) when that subset is empty; current points equals the last
match's `pointsAfter`, or `pointsStart` when there are no matches; peak
points equals the maximum of `pointsStart` and every match's
`pointsAfter`; in particular 1 win out of 3 matches gives win rate
`33.3`. -/
theorem C9_session_stats (s : Session) :
    (stats s).total = s.matchList.length ∧
    (stats s).wins = (s.matchList.filter fun m => m.result = .Win).length ∧
    (stats s).losses = (stats s).total - (stats s).wins ∧
    (s.matchList.length = 0 → (stats s).winRate = 0) ∧
    (0 < s.matchList.length → (stats s).winRate
      = (round ((((s.matchList.filter fun m => m.result = .Win).length : ℚ)
          / (s.matchList.length : ℚ)) * 1000) : ℚ) / 10) ∧
    ((s.matchList.filter fun m => m.turn = .First).length = 0 →
      (stats s).winRate1st = 0) ∧
    (0 < (s.matchList.filter fun m => m.turn = .First).length →
      (stats s).winRate1st
        = (round ((((((s.matchList.filter fun m => m.turn = .First).filter
                fun m => m.result = .Win).length : ℚ))
            / (((s.matchList.filter fun m => m.turn = .First).length : ℚ)))
            * 1000) : ℚ) / 10) ∧
    ((s.matchList.filter fun m => m.turn = .Second).length = 0 →
      (stats s).winRate2nd = 0) ∧
    (0 < (s.matchList.filter fun m => m.turn = .Second).length →
      (stats s).winRate2nd
        = (round ((((((s.matchList.filter fun m => m.turn = .Second).filter
                fun m => m.result = .Win).length : ℚ))
            / (((s.matchList.filter fun m => m.turn = .Second).length : ℚ)))
            * 1000) : ℚ) / 10) ∧
    (stats s).currentPoints
      = (s.matchList.getLast?).elim s.pointsStart (·.pointsAfter) ∧
    s.pointsStart ≤ (stats s).peakPoints ∧
    (∀ m ∈ s.matchList, m.pointsAfter ≤ (stats s).peakPoints) ∧
    ((stats s).peakPoints = s.pointsStart ∨
      ∃ m ∈ s.matchList, (stats s).peakPoints = m.pointsAfter) ∧
    (stats exWLL).winRate = 333/10 := by
  have hb := foldr_max_bounds (s.matchList.map (·.pointsAfter)) s.pointsStart
  refine ⟨rfl, rfl, rfl, ?_, ?_, ?_, ?_, ?_, ?_, ?_, ?_, ?_, ?_, ?_⟩
  · intro h
    simp [stats, h]
  · intro h
    simp [stats, h]
  · intro h
    simp [stats, h]
  · intro h
    simp [stats, h]
  · intro h
    simp [stats, h]
  · intro h
    simp [stats, h]
  · cases hg : s.matchList.getLast? with
    | none => simp [stats, hg]
    | some m => simp [stats, hg]
  · exact hb.1
  · intro m hm
    exact hb.2.1 _ (List.mem_map_of_mem _ hm)
  · rcases hb.2.2 with h | h
    · exact Or.inl h
    · obtain ⟨m, hm, heq⟩ := List.mem_map.1 h
      exact Or.inr ⟨m, hm, heq.symm⟩
  · simp [stats, exWLL, exStart, exWin, exLoss, appendMatch, calcPoints]
    norm_num [round_eq]

theorem C9_session_stats_witness :
    0 < exWLL.matchList.length ∧
    (stats exWLL).winRate
      = (round ((((exWLL.matchList.filter fun m => m.result = .Win).length : ℚ)
          / (exWLL.matchList.length : ℚ)) * 1000) : ℚ) / 10 :=
  ⟨by decide, (C9_session_stats exWLL).2.2.2.2.1 (by decide)⟩

/-- C10: Override irremovability (implicit): for every session and every
edit call whose payload omits `customPointsAfter`, the target match's
`customPointsAfter` field is unchanged — once an override has been set
on a match, no edit can remove it, so every subsequent forward recompute
continues to pin that match's `pointsAfter` to the override value; the
only ways the override disappears are deleting the match or clearing the
session. -/
theorem C10_override_irremovable {s : Session} {idx : ℕ} {e : EditInput} :
    (e.customPointsAfter = none →
      (editMatch s idx e).matchList.map (·.customPointsAfter)
        = s.matchList.map (·.customPointsAfter)) ∧
    (∀ x : ℚ, e.customPointsAfter = some x →
      (editMatch s idx e).matchList.map (·.customPointsAfter)
        = (s.matchList.map (·.customPointsAfter)).set idx (some x)) ∧
    (∀ (f : Formula) (p : ℚ) (l : List Match), customInvB l = true →
      customInvB (recompute f p l) = true) := by
  refine ⟨?_, ?_, fun f p l h => customInvB_recompute f l h p⟩
  · intro hc
    cases hg : s.matchList[idx]? with
    | none =>
      have hs : editMatch s idx e = s := by simp only [editMatch, hg]
      rw [hs]
    | some m =>
      simp only [editMatch, hg, hc]
      refine map_set_of_eq _ _ _ _ (fun m' hm' => ?_)
      rw [hg] at hm'
      cases hm'
      rfl
  · intro x hc
    cases hg : s.matchList[idx]? with
    | none =>
      have hs : editMatch s idx e = s := by simp only [editMatch, hg]
      have hge : s.matchList.length ≤ idx := List.getElem?_eq_none_iff.1 hg
      rw [hs, List.set_eq_of_length_le (by simpa using hge)]
    | some m =>
      have hidx : idx < s.matchList.length :=
        (List.getElem?_eq_some.1 hg).1
      simp only [editMatch, hg, hc]
      rw [List.set_eq_take_append_cons_drop,
        if_pos (by simpa using hidx)]
      simp [recompute_map_custom, List.map_take, List.map_drop]

theorem C10_override_irremovable_witness :
    (editMatch (appendMatch exStart exWin).1 0 exEditRes).matchList.map
        (·.customPointsAfter)
      = (appendMatch exStart exWin).1.matchList.map (·.customPointsAfter) :=
  (@C10_override_irremovable (appendMatch exStart exWin).1 0 exEditRes).1 rfl

end MDA
